import Mathlib

/-! The data model of `database.hh`.

A shallow embedding of the types declared in `database.hh`
(`api::timestamp_type`, `tombstone`, `atomic_cell`, `row`, `deletable_row`,
`mutation_partition`, `mutation`) together with the properties of their
comparison, merge, accessor and setter operations. The ordered maps of the
standard library are embedded as their entries in iteration order together
with the comparison object. The methods that `database.hh` only declares are
modelled from the specification and marked as such.

Machine integers are embedded as `Int`; the code under study only compares
them (`<`, `>`, `!=`) and never does arithmetic on them, so no wrap-around
can occur and the int64 range only matters where a statement speaks of the
smallest representable timestamp.
-/

namespace api

/-- The type `using timestamp_type = int64_t;`, embedded as `Int`
(see `api.in_range` for the int64 bounds). -/
abbrev timestamp_type := Int

/-- The constant `missing_timestamp = std::numeric_limits<timestamp_type>::min()`. -/
def missing_timestamp : timestamp_type := -9223372036854775808

/-- The constant `min_timestamp = std::numeric_limits<timestamp_type>::min() + 1`. -/
def min_timestamp : timestamp_type := -9223372036854775808 + 1

/-- The constant `max_timestamp = std::numeric_limits<timestamp_type>::max()`. -/
def max_timestamp : timestamp_type := 9223372036854775807

/-- The values an `int64_t` can hold. -/
def in_range (x : timestamp_type) : Prop :=
  missing_timestamp ≤ x ∧ x ≤ max_timestamp

instance (x : timestamp_type) : Decidable (in_range x) := by
  unfold in_range; exact inferInstance

end api

namespace gc_clock

/-- Modelled from the spec: `gc_clock.hh` is not among the sources. A
`gc_clock::time_point` is a `std::chrono::time_point`; it is represented here
by its signed tick count since the clock's epoch, so that `<` and `>` on time
points are `<` and `>` on the counts. -/
abbrev time_point := Int

/-- The value-initialised time point `{}` of `std::chrono::time_point`: the
clock's epoch, zero ticks. -/
def epoch : time_point := 0

end gc_clock

/-- The type `struct tombstone final { api::timestamp_type timestamp; gc_clock::time_point ttl; ... }`. -/
structure tombstone where
  /-- The field `api::timestamp_type timestamp`. -/
  timestamp : Int
  /-- The field `gc_clock::time_point ttl`, as its tick count. -/
  ttl : Int
deriving DecidableEq, Repr

namespace tombstone

/-- The default constructor `tombstone() : tombstone(api::missing_timestamp, {})`. -/
def empty : tombstone := ⟨api.missing_timestamp, gc_clock.epoch⟩

/-- The method `int compare(const tombstone& t) const`. -/
def compare (self t : tombstone) : Int :=
  if self.timestamp < t.timestamp then -1
  else if self.timestamp > t.timestamp then 1
  else if self.ttl < t.ttl then -1
  else if self.ttl > t.ttl then 1
  else 0

/-- The operator `operator<`: `compare(t) < 0`. -/
def lt (self t : tombstone) : Bool := decide (self.compare t < 0)

/-- The operator `operator<=`: `compare(t) <= 0`. -/
def le (self t : tombstone) : Bool := decide (self.compare t ≤ 0)

/-- The operator `operator>`: `compare(t) > 0`. -/
def gt (self t : tombstone) : Bool := decide (self.compare t > 0)

/-- The operator `operator>=`: `compare(t) >= 0`. -/
def ge (self t : tombstone) : Bool := decide (self.compare t ≥ 0)

/-- The operator `operator==`: `compare(t) == 0`. -/
def eq (self t : tombstone) : Bool := decide (self.compare t = 0)

/-- The operator `operator!=`: `compare(t) != 0`. -/
def ne (self t : tombstone) : Bool := decide (self.compare t ≠ 0)

/-- The conversion `explicit operator bool() const`:
`timestamp != api::missing_timestamp`. -/
def operator_bool (self : tombstone) : Bool :=
  decide (self.timestamp ≠ api.missing_timestamp)

/-- The method `void apply(const tombstone& t)`: the returned value is the
state of `*this` after the call. -/
def apply (self t : tombstone) : tombstone :=
  if self.lt t then t else self

/-- The pair `(timestamp, ttl)` of a tombstone, carrying the lexicographic
order the specification speaks of (Mathlib's order on `Lex (_ × _)`). -/
def lex_key (t : tombstone) : Lex (Int × Int) := toLex (t.timestamp, t.ttl)

end tombstone

/-- The type `bytes`: a string of octets (declared in `types.hh`). -/
abbrev bytes := List UInt8

/-- The type `using ttl_opt = std::experimental::optional<gc_clock::time_point>;`. -/
abbrev ttl_opt := Option gc_clock.time_point

namespace boost

/-- The exception `boost::bad_get`, thrown by the reference form of
`boost::get<U>(variant)` when the variant does not hold a `U`. -/
inductive bad_get where
  | mk
deriving DecidableEq, Repr

end boost

namespace atomic_cell

/-- The nested type `struct dead { gc_clock::time_point ttl; };`. -/
structure dead where
  ttl : gc_clock.time_point
deriving DecidableEq, Repr

/-- The nested type `struct live { ttl_opt ttl; bytes value; };`. -/
structure live where
  ttl : ttl_opt
  value : bytes
deriving DecidableEq, Repr

/-- The type `boost::variant<dead, live>`: it always holds exactly one of the
two alternatives. -/
inductive variant where
  | dead (d : atomic_cell.dead)
  | live (l : atomic_cell.live)
deriving DecidableEq, Repr

/-- The method `variant::which()`: the zero-based index of the alternative held. -/
def variant.which : variant → Nat
  | .dead _ => 0
  | .live _ => 1

/-- The call `boost::get<live>(value)` on a reference: the `live` held, or
`bad_get` thrown. -/
def variant.get_live : variant → Except boost.bad_get atomic_cell.live
  | .live l => .ok l
  | .dead _ => .error boost.bad_get.mk

/-- The call `boost::get<dead>(value)` on a reference: the `dead` held, or
`bad_get` thrown. -/
def variant.get_dead : variant → Except boost.bad_get atomic_cell.dead
  | .dead d => .ok d
  | .live _ => .error boost.bad_get.mk

end atomic_cell

/-- The type `struct atomic_cell final { api::timestamp_type timestamp; boost::variant<dead, live> value; ... }`. -/
structure atomic_cell where
  timestamp : Int
  value : atomic_cell.variant
deriving DecidableEq, Repr

namespace atomic_cell

/-- The method `bool is_live() const { return value.which() == 1; }`. -/
def is_live (self : atomic_cell) : Bool := self.value.which == 1

/-- The method `const live& as_live() const { return boost::get<live>(value); }`. -/
def as_live (self : atomic_cell) : Except boost.bad_get atomic_cell.live :=
  self.value.get_live

/-- The method `const dead& as_dead() const { return boost::get<dead>(value); }`. -/
def as_dead (self : atomic_cell) : Except boost.bad_get atomic_cell.dead :=
  self.value.get_dead

end atomic_cell

/-! ## Ordered maps of the standard library -/

namespace std

/-- The requirement that the standard library puts on a `Compare` object:
`comp` is a strict weak ordering (irreflexive, transitive, and with a
transitive incomparability relation). -/
structure strict_weak_order {K : Type} (comp : K → K → Bool) : Prop where
  irrefl : ∀ a, comp a a = false
  trans : ∀ a b c, comp a b = true → comp b c = true → comp a c = true
  incomp_trans : ∀ a b c, comp a b = false → comp b a = false →
    comp b c = false → comp c b = false → comp a c = false ∧ comp c a = false

/-- Two keys are equivalent for a comparison object when neither is less than
the other: `!comp(a, b) && !comp(b, a)`. -/
def equiv {K : Type} (comp : K → K → Bool) (a b : K) : Bool :=
  !comp a b && !comp b a

/-- The type `std::map<K, V, Compare>` holding the comparison object `comp`:
its entries in iteration order. -/
structure map (K V : Type) (comp : K → K → Bool) where
  entries : List (K × V)

namespace map

variable {K V : Type}

/-- The lookup `find(key)` over the entries in iteration order: the first
entry whose key is not less than `key` (the lower bound) is the one found,
unless `key` is less than its key. -/
def find_in (comp : K → K → Bool) : List (K × V) → K → Option V
  | [], _ => none
  | e :: rest, key =>
    if comp e.1 key then find_in comp rest key
    else if comp key e.1 then none
    else some e.2

/-- The entries after `m[key]` has been evaluated and the object it refers to
has been replaced by `f` of it. As in `operator[]`, the lower bound of `key`
is sought; when there is none, or `key` is less than its key, an entry
`(key, dflt)` with the value-initialised mapped value is inserted right there,
and the reference designates the mapped value at that position. -/
def subscript_update_in (comp : K → K → Bool) (dflt : V) (f : V → V) :
    List (K × V) → K → List (K × V)
  | [], key => [(key, f dflt)]
  | e :: rest, key =>
    if comp e.1 key then e :: subscript_update_in comp dflt f rest key
    else if comp key e.1 then (key, f dflt) :: e :: rest
    else (e.1, f e.2) :: rest

/-- The object that the reference returned by `m[key]` designates. -/
def subscript_ref_in (comp : K → K → Bool) (dflt : V) : List (K × V) → K → V
  | [], _ => dflt
  | e :: rest, key =>
    if comp e.1 key then subscript_ref_in comp dflt rest key
    else if comp key e.1 then dflt
    else e.2

variable {comp : K → K → Bool}

/-- The member `find(key)`, with `none` for `end()`. -/
def find (m : map K V comp) (key : K) : Option V := find_in comp m.entries key

/-- The member `size()`. -/
def size (m : map K V comp) : Nat := m.entries.length

/-- The map after `m[key] = f(m[key])`, where `dflt` is the value-initialised
mapped value that `operator[]` inserts for an absent key. -/
def subscript_update (m : map K V comp) (dflt : V) (key : K) (f : V → V) : map K V comp :=
  ⟨subscript_update_in comp dflt f m.entries key⟩

/-- The member `operator[](key)`: the map after the call and the object the
returned reference designates. -/
def subscript (m : map K V comp) (dflt : V) (key : K) : map K V comp × V :=
  (m.subscript_update dflt key id, subscript_ref_in comp dflt m.entries key)

/-- The class invariant of `std::map`: the keys are strictly ascending in
iteration order. -/
def sorted (m : map K V comp) : Prop :=
  m.entries.Pairwise (fun a b => comp a.1 b.1 = true)

end map

end std

/-! ## Rows, partitions and mutations -/

/-- Modelled from the spec: `schema.hh` is not among the sources. A
`column_id` is the identifier of a column, an unsigned integer ordered by `<`. -/
abbrev column_id := Nat

/-- The comparison object `std::less<column_id>` of `row`. -/
def column_id_less (a b : column_id) : Bool := decide (a < b)

/-- Modelled from the spec: `schema.hh` is not among the sources. Of a
`column_definition` only the member `id` is used here. -/
structure column_definition where
  id : column_id

namespace boost

/-- The type `boost::any`: empty, or holding one value. The values that can be
held are those of the type `α`. -/
inductive any (α : Type) where
  | empty
  | holds (v : α)
deriving DecidableEq, Repr

end boost

/-- The type `using row = std::map<column_id, boost::any>;`. -/
abbrev row (α : Type) := std.map column_id (boost.any α) column_id_less

/-- The type `struct deletable_row final { tombstone t; row cells; };`. -/
structure deletable_row (α : Type) where
  t : tombstone
  cells : row α

/-- The value-initialised `deletable_row`, as `operator[]` of `_rows` inserts
it: the default-constructed tombstone and no cells. -/
def deletable_row.init (α : Type) : deletable_row α := ⟨tombstone.empty, ⟨[]⟩⟩

/-- The type `using partition_key = bytes;`. -/
abbrev partition_key := bytes

/-- The type `using clustering_key = bytes;`. -/
abbrev clustering_key := bytes

/-- Modelled from the spec: `tuple.hh` is not among the sources. A clustering
prefix (`clustering_prefix_type::value_type`) is the possibly partial sequence
of the components of a clustering key. -/
abbrev clustering_prefix := List bytes

/-- Modelled from the spec: `types.hh` and `tuple.hh` are not among the
sources. Of the type of the clustering key the code uses the comparison
object `key_compare(type)` and the encoding `serialize_value(type, value)`. -/
structure tuple_type where
  key_compare : clustering_key → clustering_key → Bool
  serialize_value : clustering_prefix → clustering_key

/-- Modelled from the spec: `tuple.hh` is not among the sources. Of the type of
the clustering key prefixes the code uses the comparison object
`serialized_compare(type)`; the specification adds the schema-defined test
whether a serialized prefix matches a clustering key. -/
structure tuple_prefix_type where
  serialized_compare : bytes → bytes → Bool
  is_prefix_of : bytes → clustering_key → Bool

/-- Modelled from the spec: `schema.hh` is not among the sources. Of a schema
the code uses the members `clustering_key_type` and
`clustering_key_prefix_type`. -/
structure schema where
  clustering_key_type : tuple_type
  clustering_key_prefix_type : tuple_prefix_type

/-- The free function `serialize_value(type, value)` applied to the type of
the clustering key. -/
def serialize_value (type : tuple_type) (value : clustering_prefix) : clustering_key :=
  type.serialize_value value

/-- The type `schema_ptr`, a shared pointer to an immutable `schema`. -/
abbrev schema_ptr := schema

/-- The type `using row_tombstone_set = std::map<bytes, tombstone, serialized_compare>;`,
with the comparison object that `mutation_partition` constructs it with. -/
abbrev row_tombstone_set (s : schema_ptr) :=
  std.map bytes tombstone s.clustering_key_prefix_type.serialized_compare

/-- The class `mutation_partition` of a partition built against the schema `s`,
which fixes the comparison objects of `_rows` and `_row_tombstones`. -/
structure mutation_partition (α : Type) (s : schema_ptr) where
  _tombstone : tombstone
  _static_row : row α
  _rows : std.map clustering_key (deletable_row α) s.clustering_key_type.key_compare
  _row_tombstones : row_tombstone_set s

namespace mutation_partition

variable {α : Type} {s : schema_ptr}

/-- The constructor `mutation_partition(schema_ptr s)`. -/
def init (α : Type) (s : schema_ptr) : mutation_partition α s :=
  ⟨tombstone.empty, ⟨[]⟩, ⟨[]⟩, ⟨[]⟩⟩

/-- The method `void apply(tombstone t) { _tombstone.apply(t); }`. -/
def apply (self : mutation_partition α s) (t : tombstone) : mutation_partition α s :=
  { self with _tombstone := self._tombstone.apply t }

/-- The method `row_tombstones()`. -/
def row_tombstones (self : mutation_partition α s) : row_tombstone_set s :=
  self._row_tombstones

/-- The method `row& static_row() { return _static_row; }`. -/
def static_row (self : mutation_partition α s) : row α := self._static_row

/-- The method `row& clustered_row(const clustering_key& key) { return _rows[key].cells; }`:
the partition after the call and the cells that the returned reference
designates. -/
def clustered_row (self : mutation_partition α s) (key : clustering_key) :
    mutation_partition α s × row α :=
  let r := self._rows.subscript (deletable_row.init α) key
  ({ self with _rows := r.1 }, r.2.cells)

/-- The partition after `clustered_row(key)` has been called and the cells that
the returned reference designates have been replaced by `f` of them. -/
def clustered_row_update (self : mutation_partition α s) (key : clustering_key)
    (f : row α → row α) : mutation_partition α s :=
  let rows := self._rows.subscript_update (deletable_row.init α) key
    (fun r => { r with cells := f r.cells })
  { self with _rows := rows }

end mutation_partition

/-- The class `mutation`. -/
structure mutation (α : Type) where
  schema : schema_ptr
  key : partition_key
  p : mutation_partition α schema

namespace mutation

variable {α : Type}

/-- The constructor `mutation(partition_key key_, schema_ptr schema_)`. -/
def init (α : Type) (key_ : partition_key) (schema_ : schema_ptr) : mutation α :=
  ⟨schema_, key_, mutation_partition.init α schema_⟩

/-- The method `set_static_cell`: `p.static_row()[def.id] = std::move(value);`. -/
def set_static_cell (self : mutation α) (d : column_definition) (value : boost.any α) :
    mutation α :=
  let cells := self.p._static_row.subscript_update boost.any.empty d.id (fun _ => value)
  { self with p := { self.p with _static_row := cells } }

/-- The method `set_clustered_cell(const clustering_key& key, ...)`:
`auto& row = p.clustered_row(key); row[def.id] = std::move(value);`. -/
def set_clustered_cell (self : mutation α) (key : clustering_key) (d : column_definition)
    (value : boost.any α) : mutation α :=
  let p := self.p.clustered_row_update key
    (fun r => r.subscript_update boost.any.empty d.id (fun _ => value))
  { self with p := p }

/-- The method `set_clustered_cell(const clustering_prefix& prefix, ...)`:
`auto& row = p.clustered_row(serialize_value(*schema->clustering_key_type, prefix));`
`row[def.id] = std::move(value);`. -/
def set_clustered_cell_prefixed (self : mutation α) (pfx : clustering_prefix)
    (d : column_definition) (value : boost.any α) : mutation α :=
  let p := self.p.clustered_row_update
    (serialize_value self.schema.clustering_key_type pfx)
    (fun r => r.subscript_update boost.any.empty d.id (fun _ => value))
  { self with p := p }

end mutation

/-! ## The reads and the merge that `database.hh` only declares -/

namespace std.map

variable {K V : Type}

/-- Modelled from the spec: the bodies of the merging methods are not among
the sources. One entry `(key, v)` of the other map is merged into the entries:
"pairwise on equal keys, union otherwise", that is, an entry with an
equivalent key has its value combined with `v` by `f`, and otherwise
`(key, v)` is inserted at its place in the order. -/
def merge_entry_in (comp : K → K → Bool) (f : V → V → V) :
    List (K × V) → K → V → List (K × V)
  | [], key, v => [(key, v)]
  | e :: rest, key, v =>
    if comp e.1 key then e :: merge_entry_in comp f rest key v
    else if comp key e.1 then (key, v) :: e :: rest
    else (e.1, f e.2 v) :: rest

/-- Modelled from the spec: the bodies of the merging methods are not among
the sources. The merge of the map `o` into the map `m`: every entry of `o`, in
iteration order, is merged into `m`. -/
def merge_in (comp : K → K → Bool) (f : V → V → V) (m o : List (K × V)) : List (K × V) :=
  o.foldl (fun acc e => merge_entry_in comp f acc e.1 e.2) m

/-- Modelled from the spec: the merge `merge_in` on the maps themselves. -/
def merge {comp : K → K → Bool} (f : V → V → V) (m o : map K V comp) : map K V comp :=
  ⟨merge_in comp f m.entries o.entries⟩

/-- What a key reads after a merge, in terms of what it read on either side:
the combination by `f` when both sides have it, else the side that has it. -/
def merge_option (f : V → V → V) : Option V → Option V → Option V
  | some a, some b => some (f a b)
  | some a, none => some a
  | none, some b => some b
  | none, none => none

end std.map

/-- Modelled from the spec: the reconciliation of two cells of one column is
not among the sources. The merge of the existing cell `a` with the incoming
cell `b` of the same column keeps "the cell with the greater timestamp" and,
on equal timestamps, "the existing cell" (first-seen-wins), the rule that the
specification recommends. The payload of a cell is schema-declared, so the
timestamp that a stored cell carries is read by `timestamp_of`. -/
def reconcile {α : Type} (timestamp_of : boost.any α → Int) (a b : boost.any α) :
    boost.any α :=
  if timestamp_of a < timestamp_of b then b else a

/-- Modelled from the spec: two rows are merged "cell-by-cell keeping, per
column-id, the cell with the greater timestamp". -/
def row.merge {α : Type} (timestamp_of : boost.any α → Int) (r o : row α) : row α :=
  std.map.merge (reconcile timestamp_of) r o

/-- Modelled from the spec: two `deletable_row`s are merged by combining the
row tombstones with `tombstone::apply` and the cells per column. -/
def deletable_row.merge {α : Type} (timestamp_of : boost.any α → Int)
    (a b : deletable_row α) : deletable_row α :=
  ⟨a.t.apply b.t, row.merge timestamp_of a.cells b.cells⟩

/-- Two reads of one column hold no tie: when both find a cell and the two
cells carry the same timestamp, they are the same cell. -/
def cells_agree {α : Type} (timestamp_of : boost.any α → Int)
    (x y : Option (boost.any α)) : Prop :=
  ∀ a b, x = some a → y = some b → timestamp_of a = timestamp_of b → a = b

/-- Modelled from the spec: the body of `tombstone_for_row` is not among the
sources. The maximum of `init` and of the row tombstones among `l` whose prefix
is a prefix-match of `key`, by the prefix matching of the schema. -/
def range_tombstone (s : schema_ptr) (key : clustering_key) (init : tombstone)
    (l : List (bytes × tombstone)) : tombstone :=
  l.foldl
    (fun acc e =>
      if s.clustering_key_prefix_type.is_prefix_of e.1 key then acc.apply e.2 else acc)
    init

namespace mutation_partition

variable {α : Type} {s : schema_ptr}

/-- Modelled from the spec: `tombstone_for_row(schema, key)` is declared in
`database.hh` and its body is not among the sources. It computes the effective
deleting tombstone for a clustering key: the maximum of the partition
tombstone, of any row tombstone whose prefix is a prefix-match of `key`, and of
the tombstone of the row itself if the row exists. The schema is the schema
`s` that the partition was built against. -/
def tombstone_for_row (self : mutation_partition α s) (key : clustering_key) : tombstone :=
  let ranged := range_tombstone s key self._tombstone self._row_tombstones.entries
  match self._rows.find key with
  | some r => ranged.apply r.t
  | none => ranged

/-- The class invariants of the maps of a partition: the static row, the
clustering rows and the cells of every clustering row are in strictly
ascending key order. -/
def well_formed (p : mutation_partition α s) : Prop :=
  p._static_row.sorted ∧ p._rows.sorted ∧ ∀ e ∈ p._rows.entries, e.2.cells.sorted

end mutation_partition

/-- The requirements on the comparison objects and on the prefix matching of a
schema: both comparison objects are strict weak orderings, and equivalent
serialized prefixes match the same keys. -/
structure schema.well_formed (s : schema_ptr) : Prop where
  key_compare_swo : std.strict_weak_order s.clustering_key_type.key_compare
  serialized_compare_swo : std.strict_weak_order s.clustering_key_prefix_type.serialized_compare
  is_prefix_of_congr : ∀ a b key,
    std.equiv s.clustering_key_prefix_type.serialized_compare a b = true →
    s.clustering_key_prefix_type.is_prefix_of a key
      = s.clustering_key_prefix_type.is_prefix_of b key

/-! ## A concrete schema and mutation -/

namespace sample

/-- The bytewise lexicographic comparison of two byte strings. -/
def bytes_less (a b : bytes) : Bool :=
  decide (a.map UInt8.toNat < b.map UInt8.toNat)

/-- A schema whose clustering keys and serialized prefixes are compared
bytewise, whose key encoding concatenates the components, and whose prefix
matching is that of byte strings. -/
def schema : schema_ptr :=
  { clustering_key_type :=
      { key_compare := bytes_less, serialize_value := fun pfx => pfx.flatten }
    clustering_key_prefix_type :=
      { serialized_compare := bytes_less
        is_prefix_of := fun pfx key =>
          (pfx.map UInt8.toNat).isPrefixOf (key.map UInt8.toNat) } }

/-- A mutation against `sample.schema` with one cell in the row at key `[1]`. -/
def mutation : mutation Nat :=
  (mutation.init Nat [7] sample.schema).set_clustered_cell [1] ⟨0⟩ (boost.any.holds 10)

/-- The timestamp of a stored cell, for cells whose payload `v` carries the
timestamp `v / 2` (so that the payloads `2 t` and `2 t + 1` are two different
cells written at the same time `t`); an empty `boost::any` counts as written
at time 0. -/
def timestamp_of : boost.any Nat → Int
  | boost.any.empty => 0
  | boost.any.holds v => ((v / 2 : Nat) : Int)

end sample

/-! ## Auxiliary facts about `compare` -/

namespace tombstone

theorem ext_fields {a b : tombstone} (h₁ : a.timestamp = b.timestamp) (h₂ : a.ttl = b.ttl) :
    a = b := by
  cases a; cases b; simp_all

theorem compare_lt_zero_iff (a b : tombstone) :
    a.compare b < 0 ↔ a.timestamp < b.timestamp ∨ (a.timestamp = b.timestamp ∧ a.ttl < b.ttl) := by
  unfold compare
  split_ifs <;> constructor <;> intro h <;> omega

theorem compare_gt_zero_iff (a b : tombstone) :
    0 < a.compare b ↔ b.timestamp < a.timestamp ∨ (a.timestamp = b.timestamp ∧ b.ttl < a.ttl) := by
  unfold compare
  split_ifs <;> constructor <;> intro h <;> omega

theorem compare_eq_zero_iff (a b : tombstone) :
    a.compare b = 0 ↔ a.timestamp = b.timestamp ∧ a.ttl = b.ttl := by
  have h1 := compare_lt_zero_iff a b
  have h2 := compare_gt_zero_iff a b
  constructor
  · intro h
    have n1 : ¬ a.compare b < 0 := by omega
    have n2 : ¬ 0 < a.compare b := by omega
    rw [h1] at n1
    rw [h2] at n2
    omega
  · intro h
    have n1 : ¬ a.compare b < 0 := by rw [h1]; omega
    have n2 : ¬ 0 < a.compare b := by rw [h2]; omega
    omega

theorem compare_le_zero_iff (a b : tombstone) :
    a.compare b ≤ 0 ↔ a.timestamp < b.timestamp ∨ (a.timestamp = b.timestamp ∧ a.ttl ≤ b.ttl) := by
  unfold compare
  split_ifs <;> constructor <;> intro h <;> omega

theorem compare_ge_zero_iff (a b : tombstone) :
    0 ≤ a.compare b ↔ b.timestamp < a.timestamp ∨ (a.timestamp = b.timestamp ∧ b.ttl ≤ a.ttl) := by
  unfold compare
  split_ifs <;> constructor <;> intro h <;> omega

theorem lt_iff_key (a b : tombstone) : a.lt b = true ↔ a.lex_key < b.lex_key := by
  simp only [lt, lex_key, decide_eq_true_eq, Prod.Lex.lt_iff]
  exact compare_lt_zero_iff a b

theorem le_iff_key (a b : tombstone) : a.le b = true ↔ a.lex_key ≤ b.lex_key := by
  simp only [le, lex_key, decide_eq_true_eq, Prod.Lex.le_iff]
  exact compare_le_zero_iff a b

theorem key_injective {a b : tombstone} (h : a.lex_key = b.lex_key) : a = b := by
  cases a; cases b
  simp only [lex_key, EmbeddingLike.apply_eq_iff_eq, Prod.mk.injEq] at h
  simp [h.1, h.2]

theorem apply_key (a b : tombstone) : (a.apply b).lex_key = max a.lex_key b.lex_key := by
  unfold apply
  by_cases h : a.lt b = true
  · rw [if_pos h]
    exact (max_eq_right (le_of_lt ((lt_iff_key a b).1 h))).symm
  · rw [if_neg h]
    have : ¬ a.lex_key < b.lex_key := fun hc => h ((lt_iff_key a b).2 hc)
    exact (max_eq_left (not_lt.1 this)).symm

theorem ge_iff_le (a b : tombstone) : a.ge b = true ↔ b.le a = true := by
  simp only [ge, le, decide_eq_true_eq, ge_iff_le, compare_ge_zero_iff, compare_le_zero_iff]
  constructor <;> intro h <;> omega

theorem eq_iff (a b : tombstone) : a.eq b = true ↔ a = b := by
  simp only [eq, decide_eq_true_eq, compare_eq_zero_iff]
  constructor
  · intro h; exact ext_fields h.1 h.2
  · intro h; subst h; exact ⟨rfl, rfl⟩

theorem le_iff_fields (a b : tombstone) :
    a.le b = true ↔ a.timestamp < b.timestamp ∨ (a.timestamp = b.timestamp ∧ a.ttl ≤ b.ttl) := by
  simp only [le, decide_eq_true_eq, compare_le_zero_iff]

theorem apply_of_le {a b : tombstone} (h : b.le a = true) : a.apply b = a := by
  apply key_injective
  rw [apply_key]
  exact max_eq_left ((le_iff_key b a).1 h)

end tombstone

/-! ## The claims -/

/-- C1: for all tombstones `a` and `b`, the state of `a` after `a.apply(b)` is
the maximum of `a` and `b` in the lexicographic order on (timestamp, ttl): it
is `b` when `a < b` held before the call and `a` itself otherwise, hence one of
the two inputs, and it compares `>=` to the old `a` and to `b`. -/
theorem tombstone.apply_is_max (a b : tombstone) :
    (a.apply b).lex_key = max a.lex_key b.lex_key
    ∧ (a.lt b = true → a.apply b = b)
    ∧ (a.lt b = false → a.apply b = a)
    ∧ (a.apply b = a ∨ a.apply b = b)
    ∧ (a.apply b).ge a = true
    ∧ (a.apply b).ge b = true := by
  refine ⟨tombstone.apply_key a b, ?_, ?_, ?_, ?_, ?_⟩
  · intro h; simp [tombstone.apply, h]
  · intro h; simp [tombstone.apply, h]
  · unfold tombstone.apply; split_ifs <;> simp
  · rw [tombstone.ge_iff_le, tombstone.le_iff_key, tombstone.apply_key]
    exact le_max_left _ _
  · rw [tombstone.ge_iff_le, tombstone.le_iff_key, tombstone.apply_key]
    exact le_max_right _ _

/-- C2: for all tombstones `a` and `b`, `a.compare(b)` is one of -1, 0, 1 and is
the lexicographic comparison of (timestamp, ttl): -1 for a smaller timestamp,
1 for a greater one, and on equal timestamps -1, 1 or 0 as the ttl is smaller,
greater or equal. The comparison involves no arithmetic, so this includes the
smallest and the greatest int64 timestamps. -/
theorem tombstone.compare_lexicographic (a b : tombstone) :
    (a.compare b = -1 ∨ a.compare b = 0 ∨ a.compare b = 1)
    ∧ (a.timestamp < b.timestamp → a.compare b = -1)
    ∧ (a.timestamp > b.timestamp → a.compare b = 1)
    ∧ (a.timestamp = b.timestamp → a.ttl < b.ttl → a.compare b = -1)
    ∧ (a.timestamp = b.timestamp → a.ttl > b.ttl → a.compare b = 1)
    ∧ (a.timestamp = b.timestamp → a.ttl = b.ttl → a.compare b = 0)
    ∧ (a.compare b = -1 ↔ a.lex_key < b.lex_key)
    ∧ (a.compare b = 0 ↔ a.lex_key = b.lex_key)
    ∧ (a.compare b = 1 ↔ b.lex_key < a.lex_key)
    ∧ (tombstone.mk api.missing_timestamp a.ttl).compare ⟨api.max_timestamp, b.ttl⟩ = -1
    ∧ (tombstone.mk api.max_timestamp a.ttl).compare ⟨api.missing_timestamp, b.ttl⟩ = 1 := by
  have hv : a.compare b = -1 ∨ a.compare b = 0 ∨ a.compare b = 1 := by
    unfold tombstone.compare; split_ifs <;> simp
  have hlt := tombstone.compare_lt_zero_iff a b
  have hgt := tombstone.compare_gt_zero_iff a b
  have hz := tombstone.compare_eq_zero_iff a b
  refine ⟨hv, ?_, ?_, ?_, ?_, ?_, ?_, ?_, ?_, ?_, ?_⟩
  · intro h
    have : a.compare b < 0 := hlt.2 (Or.inl h)
    omega
  · intro h
    have : 0 < a.compare b := hgt.2 (Or.inl h)
    omega
  · intro h h'
    have : a.compare b < 0 := hlt.2 (Or.inr ⟨h, h'⟩)
    omega
  · intro h h'
    have : 0 < a.compare b := hgt.2 (Or.inr ⟨h, h'⟩)
    omega
  · intro h h'
    exact hz.2 ⟨h, h'⟩
  · simp only [tombstone.lex_key, Prod.Lex.lt_iff]
    rw [← hlt]
    constructor <;> intro h <;> omega
  · constructor
    · intro h
      have h' := hz.1 h
      simp [tombstone.lex_key, h'.1, h'.2]
    · intro h
      rw [tombstone.key_injective h]
      exact (tombstone.compare_eq_zero_iff b b).2 ⟨rfl, rfl⟩
  · simp only [tombstone.lex_key, Prod.Lex.lt_iff]
    have : (b.timestamp < a.timestamp ∨ b.timestamp = a.timestamp ∧ b.ttl < a.ttl)
        ↔ 0 < a.compare b := by
      rw [hgt]
      constructor <;> intro h <;> omega
    rw [this]
    constructor <;> intro h <;> omega
  · simp [tombstone.compare, api.missing_timestamp, api.max_timestamp]
  · simp [tombstone.compare, api.missing_timestamp, api.max_timestamp]

/-- C3: the relation `a <= b` of `tombstone::operator<=` is a total order:
reflexive, antisymmetric up to equality of both fields, transitive and total;
moreover `compare(a, b) == -compare(b, a)`, and `compare(a, b) == 0` exactly
when the timestamps and the ttls agree. -/
theorem tombstone.le_total_order :
    (∀ a : tombstone, a.le a = true)
    ∧ (∀ a b : tombstone, a.le b = true → b.le a = true →
        a.timestamp = b.timestamp ∧ a.ttl = b.ttl)
    ∧ (∀ a b c : tombstone, a.le b = true → b.le c = true → a.le c = true)
    ∧ (∀ a b : tombstone, a.le b = true ∨ b.le a = true)
    ∧ (∀ a b : tombstone, a.compare b = - b.compare a)
    ∧ (∀ a b : tombstone, a.compare b = 0 ↔ a.timestamp = b.timestamp ∧ a.ttl = b.ttl) := by
  refine ⟨?_, ?_, ?_, ?_, ?_, tombstone.compare_eq_zero_iff⟩
  · intro a
    rw [tombstone.le_iff_key]
  · intro a b h₁ h₂
    rw [tombstone.le_iff_fields] at h₁ h₂
    omega
  · intro a b c h₁ h₂
    rw [tombstone.le_iff_key] at *
    exact le_trans h₁ h₂
  · intro a b
    simp only [tombstone.le_iff_key]
    exact le_total _ _
  · intro a b
    unfold tombstone.compare
    split_ifs <;> omega

/-- C4: `tombstone::apply` is commutative in effect: for all tombstones `a` and
`b`, a copy of `a` after `apply(b)` compares `==` to a copy of `b` after
`apply(a)`, and the two have the same timestamp and the same ttl. -/
theorem tombstone.apply_comm (a b : tombstone) :
    (a.apply b).eq (b.apply a) = true
    ∧ (a.apply b).timestamp = (b.apply a).timestamp
    ∧ (a.apply b).ttl = (b.apply a).ttl := by
  have h : a.apply b = b.apply a := by
    apply tombstone.key_injective
    rw [tombstone.apply_key, tombstone.apply_key, max_comm]
  exact ⟨(tombstone.eq_iff _ _).2 h, by rw [h], by rw [h]⟩

/-- C5: `tombstone::apply` is idempotent: applying a tombstone to itself
leaves it unchanged, `a.apply(a) == a`. -/
theorem tombstone.apply_self (a : tombstone) :
    a.apply a = a ∧ (a.apply a).eq a = true := by
  have h : a.apply a = a := by
    apply tombstone.key_injective
    rw [tombstone.apply_key, max_self]
  exact ⟨h, (tombstone.eq_iff _ _).2 h⟩

/-- C6: `tombstone::apply` is associative: applying `b` and then `c` to `a`
gives the same tombstone as applying to `a` the result of applying `c` to `b`. -/
theorem tombstone.apply_assoc (a b c : tombstone) :
    (a.apply b).apply c = a.apply (b.apply c)
    ∧ ((a.apply b).apply c).eq (a.apply (b.apply c)) = true := by
  have h : (a.apply b).apply c = a.apply (b.apply c) := by
    apply tombstone.key_injective
    simp only [tombstone.apply_key, max_assoc]
  exact ⟨h, (tombstone.eq_iff _ _).2 h⟩

/-- C7: merging a tombstone twice, or merging an older one, is a no-op:
applying `b` a second time does not change the result of `a.apply(b)`, and
whenever `b <= a`, `a.apply(b)` leaves the timestamp and the ttl of `a` as
they were. -/
theorem tombstone.apply_twice_or_older (a b : tombstone) :
    (a.apply b).apply b = a.apply b
    ∧ (b.le a = true →
        (a.apply b).timestamp = a.timestamp ∧ (a.apply b).ttl = a.ttl) := by
  constructor
  · apply tombstone.key_injective
    simp only [tombstone.apply_key, max_assoc, max_self]
  · intro h
    rw [tombstone.apply_of_le h]
    exact ⟨rfl, rfl⟩

/-- C8 (as stated, refuted): the empty tombstone is not below every tombstone.
The tombstone with the missing timestamp and a ttl one tick before the epoch is
strictly below `tombstone()`, and merging `tombstone()` into it changes it. -/
theorem tombstone.empty_not_least :
    api.in_range (tombstone.mk api.missing_timestamp (-1)).timestamp
    ∧ tombstone.empty.le (tombstone.mk api.missing_timestamp (-1)) = false
    ∧ (tombstone.mk api.missing_timestamp (-1)).lt tombstone.empty = true
    ∧ (tombstone.mk api.missing_timestamp (-1)).apply tombstone.empty
        = tombstone.mk api.missing_timestamp 0
    ∧ (tombstone.mk api.missing_timestamp (-1)).apply tombstone.empty
        ≠ tombstone.mk api.missing_timestamp (-1) := by
  decide

/-- C8 (amended): for every tombstone `t` with an int64 timestamp,
`tombstone() <= t` holds exactly when `t` is an actual deletion (its timestamp
is not `missing_timestamp`) or its ttl is not before the epoch, the ttl of
`tombstone()`; for such a `t`, merging the empty tombstone into it leaves it
unchanged. -/
theorem tombstone.empty_le_iff (t : tombstone) (hr : api.in_range t.timestamp) :
    (tombstone.empty.le t = true ↔
      (t.timestamp ≠ api.missing_timestamp ∨ gc_clock.epoch ≤ t.ttl))
    ∧ ((t.timestamp ≠ api.missing_timestamp ∨ gc_clock.epoch ≤ t.ttl) →
        t.apply tombstone.empty = t) := by
  have key : tombstone.empty.le t = true ↔
      (t.timestamp ≠ api.missing_timestamp ∨ gc_clock.epoch ≤ t.ttl) := by
    obtain ⟨ts, ttl⟩ := t
    have h₁ : (-9223372036854775808 : Int) ≤ ts := hr.1
    rw [tombstone.le_iff_fields]
    show ((-9223372036854775808 : Int) < ts ∨ (-9223372036854775808 : Int) = ts ∧ (0 : Int) ≤ ttl)
      ↔ (ts ≠ (-9223372036854775808 : Int) ∨ (0 : Int) ≤ ttl)
    constructor <;> intro h <;> omega
  exact ⟨key, fun h => tombstone.apply_of_le (key.2 h)⟩

/-- C8 (amended), at a tombstone whose ttl lies before the epoch but whose
timestamp is an actual one. -/
theorem tombstone.empty_le_iff_witness :
    api.in_range (tombstone.mk 5 (-3)).timestamp
    ∧ tombstone.empty.le (tombstone.mk 5 (-3)) = true
    ∧ (tombstone.mk 5 (-3)).apply tombstone.empty = tombstone.mk 5 (-3) :=
  have hr : api.in_range (tombstone.mk 5 (-3)).timestamp := by decide
  have h := tombstone.empty_le_iff (tombstone.mk 5 (-3)) hr
  ⟨hr, h.1.2 (Or.inl (by decide)), h.2 (Or.inl (by decide))⟩

/-- C9: the boolean conversion of a tombstone is true exactly when its
timestamp differs from `missing_timestamp`, the minimum int64, whatever its
ttl; the default-constructed tombstone converts to false. -/
theorem tombstone.operator_bool_iff (t : tombstone) :
    (t.operator_bool = true ↔ t.timestamp ≠ api.missing_timestamp)
    ∧ (t.operator_bool = false ↔ t.timestamp = api.missing_timestamp)
    ∧ api.missing_timestamp = -(2 : Int) ^ 63
    ∧ (∀ x : api.timestamp_type, api.in_range x → api.missing_timestamp ≤ x)
    ∧ (∀ ttl : Int, (tombstone.mk t.timestamp ttl).operator_bool = t.operator_bool)
    ∧ tombstone.empty.operator_bool = false := by
  refine ⟨?_, ?_, ?_, ?_, ?_, ?_⟩
  · simp [tombstone.operator_bool]
  · simp [tombstone.operator_bool]
  · norm_num [api.missing_timestamp]
  · intro x hx; exact hx.1
  · intro ttl; rfl
  · simp [tombstone.operator_bool, tombstone.empty]

/-- C10: reading the wrong variant of an `atomic_cell` is rejected, never
answered with a default: `as_live()` succeeds, with the stored ttl and value,
iff `is_live()` is true; `as_dead()` succeeds, with the stored ttl, iff
`is_live()` is false; and the other accessor fails with `bad_get` in each
case. -/
theorem atomic_cell.accessors_reject_wrong_variant (c : atomic_cell) :
    ((∃ l, c.as_live = .ok l) ↔ c.is_live = true)
    ∧ (∀ l, c.as_live = .ok l → c.value = .live l)
    ∧ ((∃ d, c.as_dead = .ok d) ↔ c.is_live = false)
    ∧ (∀ d, c.as_dead = .ok d → c.value = .dead d)
    ∧ (c.is_live = true → c.as_dead = .error boost.bad_get.mk)
    ∧ (c.is_live = false → c.as_live = .error boost.bad_get.mk) := by
  obtain ⟨ts, v⟩ := c
  cases v with
  | dead d =>
    simp [atomic_cell.as_live, atomic_cell.as_dead, atomic_cell.is_live,
      atomic_cell.variant.which, atomic_cell.variant.get_live,
      atomic_cell.variant.get_dead]
  | live l =>
    simp [atomic_cell.as_live, atomic_cell.as_dead, atomic_cell.is_live,
      atomic_cell.variant.which, atomic_cell.variant.get_live,
      atomic_cell.variant.get_dead]

/-! ## Auxiliary facts about comparison objects and ordered maps -/

namespace std

variable {K V : Type} {comp : K → K → Bool}

theorem equiv_eq_true_iff (a b : K) :
    equiv comp a b = true ↔ comp a b = false ∧ comp b a = false := by
  unfold equiv
  cases comp a b <;> cases comp b a <;> simp

theorem equiv_eq_false_iff (a b : K) :
    equiv comp a b = false ↔ comp a b = true ∨ comp b a = true := by
  unfold equiv
  cases comp a b <;> cases comp b a <;> simp

theorem swo_asymm (h : strict_weak_order comp) {a b : K} (hab : comp a b = true) :
    comp b a = false := by
  cases hba : comp b a with
  | false => rfl
  | true =>
    have h₁ := h.trans a b a hab hba
    rw [h.irrefl] at h₁
    exact absurd h₁ (by simp)

theorem swo_equiv_refl (h : strict_weak_order comp) (a : K) : equiv comp a a = true := by
  rw [equiv_eq_true_iff]
  exact ⟨h.irrefl a, h.irrefl a⟩

theorem swo_equiv_symm {k k' : K} (he : equiv comp k k' = true) : equiv comp k' k = true := by
  rw [equiv_eq_true_iff] at *
  exact ⟨he.2, he.1⟩

theorem swo_equiv_trans (h : strict_weak_order comp) {a b c : K}
    (hab : equiv comp a b = true) (hbc : equiv comp b c = true) : equiv comp a c = true := by
  rw [equiv_eq_true_iff] at *
  exact h.incomp_trans a b c hab.1 hab.2 hbc.1 hbc.2

/-- Comparing the images under a map into a linear order gives a strict weak
ordering. -/
theorem swo_of_linear_order {L : Type} [LinearOrder L] (f : K → L) :
    strict_weak_order (fun a b : K => decide (f a < f b)) where
  irrefl := fun a => by simp
  trans := fun a b c hab hbc => by
    simp only [decide_eq_true_eq] at *
    exact lt_trans hab hbc
  incomp_trans := fun a b c h₁ h₂ h₃ h₄ => by
    simp only [decide_eq_false_iff_not, not_lt] at *
    have hab : f a = f b := le_antisymm h₂ h₁
    have hbc : f b = f c := le_antisymm h₄ h₃
    rw [hab, hbc]
    exact ⟨le_refl _, le_refl _⟩

end std

theorem column_id_less_swo : std.strict_weak_order column_id_less :=
  std.swo_of_linear_order (fun a : column_id => a)

theorem column_id_equiv_iff (a b : column_id) :
    std.equiv column_id_less a b = true ↔ a = b := by
  rw [std.equiv_eq_true_iff]
  simp only [column_id_less, decide_eq_false_iff_not, not_lt]
  constructor
  · intro h; exact le_antisymm h.2 h.1
  · intro h; subst h; exact ⟨le_refl _, le_refl _⟩

namespace std.map

variable {K V : Type} {comp : K → K → Bool}

theorem find_in_subscript_update_self (h : strict_weak_order comp) (dflt : V) (f : V → V)
    (l : List (K × V)) (k : K) :
    find_in comp (subscript_update_in comp dflt f l k) k
      = some (f ((find_in comp l k).getD dflt)) := by
  induction l with
  | nil => simp [subscript_update_in, find_in, h.irrefl]
  | cons e rest ih =>
    simp only [subscript_update_in, find_in]
    by_cases h₁ : comp e.1 k = true
    · simp only [h₁, if_true, find_in]
      exact ih
    · by_cases h₂ : comp k e.1 = true
      · simp [h₁, h₂, find_in, h.irrefl]
      · simp [h₁, h₂, find_in]

theorem find_in_subscript_update_other (h : strict_weak_order comp) (dflt : V) (f : V → V)
    (l : List (K × V)) {k k' : K} (hne : equiv comp k k' = false) :
    find_in comp (subscript_update_in comp dflt f l k) k' = find_in comp l k' := by
  rw [equiv_eq_false_iff] at hne
  induction l with
  | nil =>
    simp only [subscript_update_in, find_in]
    rcases hne with hk | hk
    · simp [hk]
    · simp [hk, swo_asymm h hk]
  | cons e rest ih =>
    simp only [subscript_update_in, find_in]
    by_cases h₁ : comp e.1 k = true
    · simp only [h₁, if_true, find_in]
      rw [ih]
    · by_cases h₂ : comp k e.1 = true
      · simp only [h₁, h₂, if_true, if_false, find_in]
        rcases hne with hk | hk
        · simp [hk]
        · have h₃ : comp k' e.1 = true := h.trans _ _ _ hk h₂
          simp [hk, swo_asymm h hk, h₃, swo_asymm h h₃]
      · simp only [h₁, h₂, if_false, find_in]
        have hek : equiv comp e.1 k = true := by
          rw [equiv_eq_true_iff]
          exact ⟨by simpa using h₁, by simpa using h₂⟩
        by_cases h₃ : comp e.1 k' = true
        · simp [h₃]
        · by_cases h₄ : comp k' e.1 = true
          · simp [h₃, h₄]
          · exfalso
            have hek' : equiv comp e.1 k' = true := by
              rw [equiv_eq_true_iff]
              exact ⟨by simpa using h₃, by simpa using h₄⟩
            have hkk := swo_equiv_trans h (swo_equiv_symm hek) hek'
            rw [equiv_eq_true_iff] at hkk
            rcases hne with hk | hk
            · rw [hkk.1] at hk; exact absurd hk (by simp)
            · rw [hkk.2] at hk; exact absurd hk (by simp)

theorem length_subscript_update_in (dflt : V) (f : V → V) (l : List (K × V)) (k : K) :
    (subscript_update_in comp dflt f l k).length
      = if (find_in comp l k).isSome then l.length else l.length + 1 := by
  induction l with
  | nil => simp [subscript_update_in, find_in]
  | cons e rest ih =>
    simp only [subscript_update_in, find_in]
    by_cases h₁ : comp e.1 k = true
    · simp only [h₁, if_true, List.length_cons, ih]
      split_ifs <;> rfl
    · by_cases h₂ : comp k e.1 = true
      · simp [h₁, h₂]
      · simp [h₁, h₂]

theorem subscript_update_in_of_find_some (dflt : V) (f : V → V) (l : List (K × V)) (k : K)
    {v : V} (hf : find_in comp l k = some v) :
    subscript_ref_in comp dflt l k = v
    ∧ ∃ pre post k₀, l = pre ++ (k₀, v) :: post
        ∧ subscript_update_in comp dflt f l k = pre ++ (k₀, f v) :: post := by
  induction l with
  | nil => simp [find_in] at hf
  | cons e rest ih =>
    simp only [find_in] at hf
    simp only [subscript_update_in, subscript_ref_in]
    by_cases h₁ : comp e.1 k = true
    · simp only [h₁, if_true] at hf ⊢
      obtain ⟨hr, pre, post, k₀, hl, hu⟩ := ih hf
      exact ⟨hr, e :: pre, post, k₀, by rw [hl]; rfl, by rw [hu]; rfl⟩
    · by_cases h₂ : comp k e.1 = true
      · simp [h₁, h₂] at hf
      · simp only [h₁, h₂, if_false, Bool.false_eq_true, Option.some.injEq] at hf ⊢
        subst hf
        exact ⟨rfl, [], rest, e.1, rfl, rfl⟩

theorem subscript_update_in_of_find_none (dflt : V) (f : V → V) (l : List (K × V)) (k : K)
    (hf : find_in comp l k = none) :
    subscript_ref_in comp dflt l k = dflt
    ∧ ∃ pre post, l = pre ++ post
        ∧ subscript_update_in comp dflt f l k = pre ++ (k, f dflt) :: post := by
  induction l with
  | nil => exact ⟨rfl, [], [], rfl, rfl⟩
  | cons e rest ih =>
    simp only [find_in] at hf
    simp only [subscript_update_in, subscript_ref_in]
    by_cases h₁ : comp e.1 k = true
    · simp only [h₁, if_true] at hf ⊢
      obtain ⟨hr, pre, post, hl, hu⟩ := ih hf
      exact ⟨hr, e :: pre, post, by rw [hl]; rfl, by rw [hu]; rfl⟩
    · by_cases h₂ : comp k e.1 = true
      · simp only [h₁, h₂, if_true, if_false]
        exact ⟨rfl, [], e :: rest, rfl, rfl⟩
      · simp [h₁, h₂] at hf

theorem subscript_update_in_twice (h : strict_weak_order comp) (dflt : V) (f g : V → V)
    (l : List (K × V)) (k : K) :
    subscript_update_in comp dflt g (subscript_update_in comp dflt f l k) k
      = subscript_update_in comp dflt (fun v => g (f v)) l k := by
  induction l with
  | nil => simp [subscript_update_in, h.irrefl]
  | cons e rest ih =>
    simp only [subscript_update_in]
    by_cases h₁ : comp e.1 k = true
    · simp only [h₁, if_true, subscript_update_in]
      rw [ih]
    · by_cases h₂ : comp k e.1 = true
      · simp [h₁, h₂, subscript_update_in, h.irrefl]
      · simp [h₁, h₂, subscript_update_in]

theorem subscript_ref_in_eq (dflt : V) (l : List (K × V)) (k : K) :
    subscript_ref_in comp dflt l k = (find_in comp l k).getD dflt := by
  induction l with
  | nil => rfl
  | cons e rest ih =>
    simp only [subscript_ref_in, find_in]
    by_cases h₁ : comp e.1 k = true
    · simp only [h₁, if_true, ih]
    · by_cases h₂ : comp k e.1 = true
      · simp [h₁, h₂]
      · simp [h₁, h₂]

end std.map

/-! ## The claims on partitions and mutations -/

/-- C11: `mutation_partition::apply(tombstone t)` merges only the
partition-level tombstone: afterwards the partition tombstone is the maximum of
the old one and `t`, and the static row, the clustering rows (row tombstones
and cells as stored) and the `row_tombstones` map are exactly as before. -/
theorem mutation_partition.apply_tombstone_frame {α : Type} {s : schema_ptr}
    (p : mutation_partition α s) (t : tombstone) :
    (p.apply t)._tombstone = p._tombstone.apply t
    ∧ (p.apply t)._tombstone.lex_key = max p._tombstone.lex_key t.lex_key
    ∧ (p.apply t)._static_row = p._static_row
    ∧ (p.apply t)._rows = p._rows
    ∧ (p.apply t)._row_tombstones = p._row_tombstones :=
  ⟨rfl, tombstone.apply_key _ _, rfl, rfl, rfl⟩

/-- C12: `mutation::set_static_cell` overwrites without merging: afterwards
the static row maps `def.id` to exactly the value given, whatever was stored
there before; every other column of the static row reads as before; and of two
successive sets on the same column the last one wins. -/
theorem mutation.set_static_cell_overwrites {α : Type} (m : mutation α)
    (d : column_definition) (v v' : boost.any α) :
    (m.set_static_cell d v).p._static_row.find d.id = some v
    ∧ (∀ c : column_id, c ≠ d.id →
        (m.set_static_cell d v).p._static_row.find c = m.p._static_row.find c)
    ∧ (m.set_static_cell d v).set_static_cell d v' = m.set_static_cell d v'
    ∧ ((m.set_static_cell d v).set_static_cell d v').p._static_row.find d.id = some v' := by
  have hself : ∀ (m : mutation α) (w : boost.any α),
      (m.set_static_cell d w).p._static_row.find d.id = some w := fun m w =>
    std.map.find_in_subscript_update_self column_id_less_swo _ _ _ _
  refine ⟨hself m v, ?_, ?_, hself _ v'⟩
  · intro c hc
    apply std.map.find_in_subscript_update_other column_id_less_swo
    cases hq : std.equiv column_id_less d.id c with
    | false => rfl
    | true => exact absurd ((column_id_equiv_iff _ _).1 hq).symm hc
  · show mutation.mk _ _ _ = mutation.mk _ _ _
    congr 1
    show mutation_partition.mk _ _ _ _ = mutation_partition.mk _ _ _ _
    congr 1
    show std.map.mk _ = std.map.mk _
    congr 1
    exact std.map.subscript_update_in_twice column_id_less_swo _ _ _ _ _

/-- C13: `mutation::set_clustered_cell(key, def, v)` writes only into the
cell map of the target row: afterwards the row at `key` exists and maps
`def.id` to `v`, its other cells and its row tombstone are those of the row
that was there (of a fresh row when there was none), and the partition
tombstone, the static row, the `row_tombstones` map and every row at a key
that is not equivalent to `key` are unchanged. -/
theorem mutation.set_clustered_cell_frame {α : Type} (m : mutation α)
    (key : clustering_key) (d : column_definition) (v : boost.any α)
    (h : std.strict_weak_order m.schema.clustering_key_type.key_compare) :
    (∃ r, (m.set_clustered_cell key d v).p._rows.find key = some r
        ∧ r.cells.find d.id = some v
        ∧ r.t = ((m.p._rows.find key).getD (deletable_row.init α)).t
        ∧ ∀ c : column_id, c ≠ d.id →
            r.cells.find c
              = ((m.p._rows.find key).getD (deletable_row.init α)).cells.find c)
    ∧ (m.set_clustered_cell key d v).p._tombstone = m.p._tombstone
    ∧ (m.set_clustered_cell key d v).p._static_row = m.p._static_row
    ∧ (m.set_clustered_cell key d v).p._row_tombstones = m.p._row_tombstones
    ∧ (∀ k' : clustering_key,
        std.equiv m.schema.clustering_key_type.key_compare key k' = false →
        (m.set_clustered_cell key d v).p._rows.find k' = m.p._rows.find k') := by
  refine ⟨⟨_, std.map.find_in_subscript_update_self h _ _ _ _, ?_, rfl, ?_⟩,
    rfl, rfl, rfl, ?_⟩
  · exact std.map.find_in_subscript_update_self column_id_less_swo _ _ _ _
  · intro c hc
    apply std.map.find_in_subscript_update_other column_id_less_swo
    cases hq : std.equiv column_id_less d.id c with
    | false => rfl
    | true => exact absurd ((column_id_equiv_iff _ _).1 hq).symm hc
  · intro k' hk'
    exact std.map.find_in_subscript_update_other h _ _ _ hk'

/-- C14: the prefix form of `set_clustered_cell` is the key form applied to the
serialized prefix: it leaves the mutation in the same state as
`set_clustered_cell(serialize_value(clustering_key_type, p), def, v)`,
whatever serialization function the schema supplies. -/
theorem mutation.set_clustered_cell_prefixed_eq {α : Type} (m : mutation α)
    (pfx : clustering_prefix) (d : column_definition) (v : boost.any α) :
    m.set_clustered_cell_prefixed pfx d v
      = m.set_clustered_cell (serialize_value m.schema.clustering_key_type pfx) d v
    ∧ (m.set_clustered_cell_prefixed pfx d v).p
      = m.p.clustered_row_update (m.schema.clustering_key_type.serialize_value pfx)
          (fun r => r.subscript_update boost.any.empty d.id (fun _ => v)) :=
  ⟨rfl, rfl⟩

theorem sample.bytes_less_swo : std.strict_weak_order sample.bytes_less :=
  std.swo_of_linear_order (fun a : bytes => a.map UInt8.toNat)

/-- C13 at a concrete mutation: a second column written into an existing row. -/
theorem mutation.set_clustered_cell_frame_witness :
    std.strict_weak_order sample.mutation.schema.clustering_key_type.key_compare
    ∧ (∃ r, (sample.mutation.set_clustered_cell [1] ⟨3⟩ (boost.any.holds 5)).p._rows.find [1]
          = some r
        ∧ r.cells.find 3 = some (boost.any.holds 5)
        ∧ r.t = ((sample.mutation.p._rows.find [1]).getD (deletable_row.init Nat)).t
        ∧ ∀ c : column_id, c ≠ 3 →
            r.cells.find c
              = ((sample.mutation.p._rows.find [1]).getD (deletable_row.init Nat)).cells.find c) :=
  ⟨sample.bytes_less_swo,
    (mutation.set_clustered_cell_frame sample.mutation [1] ⟨3⟩ (boost.any.holds 5)
      sample.bytes_less_swo).1⟩

/-- C17: the six comparison operators of `tombstone` agree with one another
and with `compare`: exactly one of `a < b`, `a == b`, `a > b` holds; `a <= b`
iff not `a > b`; `a >= b` iff not `a < b`; `a != b` iff not `a == b`; `a < b`
iff `b > a`; and `a == b` iff the timestamps and the ttls are the same. -/
theorem tombstone.operators_agree (a b : tombstone) :
    ((a.lt b = true ∧ a.eq b = false ∧ a.gt b = false)
      ∨ (a.lt b = false ∧ a.eq b = true ∧ a.gt b = false)
      ∨ (a.lt b = false ∧ a.eq b = false ∧ a.gt b = true))
    ∧ a.le b = (!a.gt b)
    ∧ a.ge b = (!a.lt b)
    ∧ a.ne b = (!a.eq b)
    ∧ a.lt b = b.gt a
    ∧ (a.eq b = true ↔ a.timestamp = b.timestamp ∧ a.ttl = b.ttl) := by
  have hv : a.compare b = -1 ∨ a.compare b = 0 ∨ a.compare b = 1 := by
    unfold tombstone.compare; split_ifs <;> simp
  have hs : b.compare a = -a.compare b := by
    unfold tombstone.compare; split_ifs <;> omega
  have hz := tombstone.compare_eq_zero_iff a b
  refine ⟨?_, ?_, ?_, ?_, ?_, ?_⟩
  · simp only [tombstone.lt, tombstone.eq, tombstone.gt]
    rcases hv with h | h | h <;> simp [h]
  · simp only [tombstone.le, tombstone.gt]
    rcases hv with h | h | h <;> simp [h]
  · simp only [tombstone.ge, tombstone.lt]
    rcases hv with h | h | h <;> simp [h]
  · simp only [tombstone.ne, tombstone.eq]
    rcases hv with h | h | h <;> simp [h]
  · simp only [tombstone.lt, tombstone.gt, hs]
    rcases hv with h | h | h <;> simp [h]
  · simp only [tombstone.eq, decide_eq_true_eq]
    exact hz

/-- C18: every actual deletion outranks the absence of deletion: for a
tombstone `t` with an int64 timestamp, the boolean conversion is true exactly
when `timestamp >= min_timestamp`, and then `tombstone() < t` strictly,
whatever the ttl of `t`, so that applying `t` to an empty tombstone replaces
it. -/
theorem tombstone.deletion_outranks_empty (t : tombstone) (hr : api.in_range t.timestamp) :
    (t.operator_bool = true ↔ api.min_timestamp ≤ t.timestamp)
    ∧ (t.operator_bool = true →
        tombstone.empty.lt t = true ∧ tombstone.empty.apply t = t) := by
  obtain ⟨ts, ttl⟩ := t
  have h₁ : (-9223372036854775808 : Int) ≤ ts := hr.1
  have hb : (tombstone.mk ts ttl).operator_bool = true ↔ ts ≠ -9223372036854775808 := by
    simp [tombstone.operator_bool, api.missing_timestamp]
  have hlt : tombstone.empty.lt (tombstone.mk ts ttl) = true
      ↔ ((-9223372036854775808 : Int) < ts ∨ ((-9223372036854775808 : Int) = ts ∧ (0 : Int) < ttl)) := by
    simp only [tombstone.lt, decide_eq_true_eq]
    exact tombstone.compare_lt_zero_iff _ _
  constructor
  · rw [hb]
    show ts ≠ -9223372036854775808 ↔ (-9223372036854775808 + 1 : Int) ≤ ts
    constructor <;> intro h <;> omega
  · intro h
    rw [hb] at h
    have hl : tombstone.empty.lt (tombstone.mk ts ttl) = true := by
      rw [hlt]; omega
    exact ⟨hl, by simp [tombstone.apply, hl]⟩

/-- C18 at the smallest actual timestamp with a ttl before the epoch. -/
theorem tombstone.deletion_outranks_empty_witness :
    api.in_range (tombstone.mk api.min_timestamp (-7)).timestamp
    ∧ (tombstone.mk api.min_timestamp (-7)).operator_bool = true
    ∧ tombstone.empty.lt (tombstone.mk api.min_timestamp (-7)) = true
    ∧ tombstone.empty.apply (tombstone.mk api.min_timestamp (-7))
        = tombstone.mk api.min_timestamp (-7) :=
  have hr : api.in_range (tombstone.mk api.min_timestamp (-7)).timestamp := by decide
  have hb : (tombstone.mk api.min_timestamp (-7)).operator_bool = true := by decide
  have h := (tombstone.deletion_outranks_empty (tombstone.mk api.min_timestamp (-7)) hr).2 hb
  ⟨hr, hb, h.1, h.2⟩

/-- C19: a merge never loses or invents a deletion: for tombstones `a` and `b`
with int64 timestamps, after `a.apply(b)` the boolean conversion of `a` is true
iff it was true for `a` before the call or is true for `b`. -/
theorem tombstone.apply_operator_bool (a b : tombstone)
    (ha : api.in_range a.timestamp) (hb : api.in_range b.timestamp) :
    (a.apply b).operator_bool = (a.operator_bool || b.operator_bool)
    ∧ ((a.apply b).operator_bool = true ↔ a.operator_bool = true ∨ b.operator_bool = true) := by
  obtain ⟨ta, la⟩ := a
  obtain ⟨tb, lb⟩ := b
  have h₁ : (-9223372036854775808 : Int) ≤ ta := ha.1
  have h₂ : (-9223372036854775808 : Int) ≤ tb := hb.1
  have key : (((tombstone.mk ta la).apply (tombstone.mk tb lb)).operator_bool = true
      ↔ (tombstone.mk ta la).operator_bool = true ∨ (tombstone.mk tb lb).operator_bool = true) := by
    unfold tombstone.apply
    by_cases hl : (tombstone.mk ta la).lt (tombstone.mk tb lb) = true
    · rw [if_pos hl]
      have hl' := (tombstone.compare_lt_zero_iff _ _).1 (by simpa [tombstone.lt] using hl)
      simp only [tombstone.operator_bool, api.missing_timestamp, decide_eq_true_eq] at *
      constructor <;> intro h <;> omega
    · rw [if_neg hl]
      have hl' : ¬ ((tombstone.mk ta la).compare (tombstone.mk tb lb) < 0) := by
        simpa [tombstone.lt] using hl
      rw [tombstone.compare_lt_zero_iff] at hl'
      simp only [tombstone.operator_bool, api.missing_timestamp, decide_eq_true_eq] at *
      constructor <;> intro h <;> omega
  refine ⟨?_, key⟩
  cases h : ((tombstone.mk ta la).apply (tombstone.mk tb lb)).operator_bool with
  | true =>
    rcases key.1 h with h' | h' <;> simp [h']
  | false =>
    cases hx : (tombstone.mk ta la).operator_bool with
    | true => rw [key.2 (Or.inl hx)] at h; exact absurd h (by simp)
    | false =>
      cases hy : (tombstone.mk tb lb).operator_bool with
      | true => rw [key.2 (Or.inr hy)] at h; exact absurd h (by simp)
      | false => rfl

/-- C19 at an empty tombstone merged with an actual deletion. -/
theorem tombstone.apply_operator_bool_witness :
    api.in_range tombstone.empty.timestamp
    ∧ api.in_range (tombstone.mk 4 2).timestamp
    ∧ (tombstone.empty.apply (tombstone.mk 4 2)).operator_bool
        = (tombstone.empty.operator_bool || (tombstone.mk 4 2).operator_bool) :=
  have ha : api.in_range tombstone.empty.timestamp := by decide
  have hb : api.in_range (tombstone.mk 4 2).timestamp := by decide
  ⟨ha, hb, (tombstone.apply_operator_bool tombstone.empty (tombstone.mk 4 2) ha hb).1⟩

/-- C20: `mutation_partition::clustered_row(key)` is find-or-create. When no
row exists at `key` it inserts exactly one row there, with the empty tombstone
and no cells, between the rows that were there; when a row exists at `key` it
changes nothing in the partition and returns the cells of that row; the rows
at keys not equivalent to `key` read as before, the number of rows grows by at
most one, the other members of the partition are untouched, and a second call
with the same key changes nothing. -/
theorem mutation_partition.clustered_row_find_or_create {α : Type} {s : schema_ptr}
    (p : mutation_partition α s) (key : clustering_key)
    (h : std.strict_weak_order s.clustering_key_type.key_compare) :
    (p._rows.find key = none →
      (∃ pre post, p._rows.entries = pre ++ post
          ∧ (p.clustered_row key).1._rows.entries
              = pre ++ (key, deletable_row.init α) :: post)
      ∧ (p.clustered_row key).1._rows.find key = some (deletable_row.init α)
      ∧ (deletable_row.init α).t.operator_bool = false
      ∧ (deletable_row.init α).cells.entries = []
      ∧ (p.clustered_row key).2 = (deletable_row.init α).cells
      ∧ (p.clustered_row key).1._rows.size = p._rows.size + 1)
    ∧ (∀ r, p._rows.find key = some r →
        (p.clustered_row key).1 = p ∧ (p.clustered_row key).2 = r.cells)
    ∧ (∀ k' : clustering_key, std.equiv s.clustering_key_type.key_compare key k' = false →
        (p.clustered_row key).1._rows.find k' = p._rows.find k')
    ∧ (p.clustered_row key).1._rows.size ≤ p._rows.size + 1
    ∧ (p.clustered_row key).1._tombstone = p._tombstone
    ∧ (p.clustered_row key).1._static_row = p._static_row
    ∧ (p.clustered_row key).1._row_tombstones = p._row_tombstones
    ∧ ((p.clustered_row key).1.clustered_row key).1 = (p.clustered_row key).1 := by
  obtain ⟨t, sr, ⟨rows⟩, rt⟩ := p
  have hlen := @std.map.length_subscript_update_in _ _ s.clustering_key_type.key_compare
    (deletable_row.init α) id rows key
  refine ⟨?_, ?_, ?_, ?_, rfl, rfl, rfl, ?_⟩
  · intro hf
    have hf' : std.map.find_in s.clustering_key_type.key_compare rows key = none := hf
    obtain ⟨href, pre, post, hl, hu⟩ :=
      std.map.subscript_update_in_of_find_none (deletable_row.init α) id rows key hf'
    refine ⟨⟨pre, post, hl, hu⟩, ?_, ?_, rfl, ?_, ?_⟩
    · have := std.map.find_in_subscript_update_self h (deletable_row.init α) id rows key
      rw [hf'] at this
      exact this
    · simp [deletable_row.init, tombstone.operator_bool, tombstone.empty]
    · show (std.map.subscript_ref_in _ (deletable_row.init α) rows key).cells = _
      rw [href]
    · show (std.map.subscript_update_in _ (deletable_row.init α) id rows key).length
        = rows.length + 1
      rw [hlen, hf']
      rfl
  · intro r hf
    have hf' : std.map.find_in s.clustering_key_type.key_compare rows key = some r := hf
    obtain ⟨href, pre, post, k₀, hl, hu⟩ :=
      std.map.subscript_update_in_of_find_some (deletable_row.init α) id rows key hf'
    constructor
    · show mutation_partition.mk _ _ (std.map.mk _) _ = mutation_partition.mk _ _ (std.map.mk _) _
      congr 2
      rw [hu, hl]
      rfl
    · show (std.map.subscript_ref_in _ (deletable_row.init α) rows key).cells = _
      rw [href]
  · intro k' hk'
    exact std.map.find_in_subscript_update_other h _ _ _ hk'
  · show (std.map.subscript_update_in _ (deletable_row.init α) id rows key).length
      ≤ rows.length + 1
    rw [hlen]
    split_ifs <;> omega
  · simp only [mutation_partition.clustered_row, std.map.subscript, std.map.subscript_update]
    rw [std.map.subscript_update_in_twice h (deletable_row.init α) id id rows key]
    rfl

/-- C20 at the empty partition: the first call creates the row at `[2]`, and a
second call leaves the partition as the first one left it. -/
theorem mutation_partition.clustered_row_find_or_create_witness :
    std.strict_weak_order sample.schema.clustering_key_type.key_compare
    ∧ (mutation_partition.init Nat sample.schema)._rows.find [2] = none
    ∧ ((mutation_partition.init Nat sample.schema).clustered_row [2]).1._rows.find [2]
        = some (deletable_row.init Nat)
    ∧ ((mutation_partition.init Nat sample.schema).clustered_row [2]).1._rows.size
        = (mutation_partition.init Nat sample.schema)._rows.size + 1
    ∧ (((mutation_partition.init Nat sample.schema).clustered_row [2]).1.clustered_row [2]).1
        = ((mutation_partition.init Nat sample.schema).clustered_row [2]).1 :=
  have h := mutation_partition.clustered_row_find_or_create
    (mutation_partition.init Nat sample.schema) [2] sample.bytes_less_swo
  ⟨sample.bytes_less_swo, rfl, (h.1 rfl).2.1, (h.1 rfl).2.2.2.2.2, h.2.2.2.2.2.2.2⟩

/-! ## Auxiliary facts about the effective tombstone -/

namespace tombstone

theorem key_le_apply_left (a b : tombstone) : a.lex_key ≤ (a.apply b).lex_key := by
  rw [apply_key]; exact le_max_left _ _

theorem key_le_apply_right (a b : tombstone) : b.lex_key ≤ (a.apply b).lex_key := by
  rw [apply_key]; exact le_max_right _ _

theorem ge_iff_key (a b : tombstone) : a.ge b = true ↔ b.lex_key ≤ a.lex_key := by
  rw [ge_iff_le, le_iff_key]

end tombstone

theorem range_tombstone_cons (s : schema_ptr) (key : clustering_key) (init : tombstone)
    (e : bytes × tombstone) (rest : List (bytes × tombstone)) :
    range_tombstone s key init (e :: rest)
      = range_tombstone s key
          (if s.clustering_key_prefix_type.is_prefix_of e.1 key then init.apply e.2 else init)
          rest := rfl

theorem range_tombstone_key_le (s : schema_ptr) (key : clustering_key)
    (l : List (bytes × tombstone)) (init : tombstone) :
    init.lex_key ≤ (range_tombstone s key init l).lex_key := by
  induction l generalizing init with
  | nil => exact le_refl _
  | cons e rest ih =>
    rw [range_tombstone_cons]
    refine le_trans ?_ (ih _)
    split_ifs
    · exact tombstone.key_le_apply_left _ _
    · exact le_refl _

/-- C15: partition-tombstone dominance: for every partition, tombstone
`{T, exp}` and clustering key `k`, also a key with no explicit row, after
`partition.apply(tombstone{T, exp})` the value of `tombstone_for_row(schema, k)`
is a tombstone `>= {T, exp}`. -/
theorem mutation_partition.tombstone_for_row_dominates {α : Type} {s : schema_ptr}
    (p : mutation_partition α s) (T : api.timestamp_type) (exp : gc_clock.time_point)
    (k : clustering_key) :
    ((p.apply (tombstone.mk T exp)).tombstone_for_row k).ge (tombstone.mk T exp) = true
    ∧ (tombstone.mk T exp).le ((p.apply (tombstone.mk T exp)).tombstone_for_row k) = true := by
  have h₁ : (tombstone.mk T exp).lex_key
      ≤ (range_tombstone s k (p._tombstone.apply (tombstone.mk T exp))
          p._row_tombstones.entries).lex_key :=
    le_trans (tombstone.key_le_apply_right _ _) (range_tombstone_key_le _ _ _ _)
  have h₂ : (tombstone.mk T exp).lex_key
      ≤ ((p.apply (tombstone.mk T exp)).tombstone_for_row k).lex_key := by
    show _ ≤ (match p._rows.find k with
      | some r => (range_tombstone s k (p._tombstone.apply (tombstone.mk T exp))
          p._row_tombstones.entries).apply r.t
      | none => range_tombstone s k (p._tombstone.apply (tombstone.mk T exp))
          p._row_tombstones.entries).lex_key
    cases p._rows.find k with
    | none => exact h₁
    | some r => exact le_trans h₁ (tombstone.key_le_apply_left _ _)
  exact ⟨(tombstone.ge_iff_key _ _).2 h₂, (tombstone.le_iff_key _ _).2 h₂⟩

/-! ## Auxiliary facts about the reconciliation of cells -/

theorem cells_agree_symm {α : Type} {ts : boost.any α → Int} {x y : Option (boost.any α)}
    (h : cells_agree ts x y) : cells_agree ts y x :=
  fun a b ha hb hts => (h b a hb ha hts.symm).symm

namespace std.map

variable {K V : Type} {comp : K → K → Bool}

theorem merge_option_comm {f : V → V → V} (hf : ∀ a b, f a b = f b a) (x y : Option V) :
    merge_option f x y = merge_option f y x := by
  cases x <;> cases y <;> simp [merge_option, hf _ _]

end std.map

/-! ## Auxiliary facts about the merge of ordered maps -/

namespace std.map

variable {K V : Type} {comp : K → K → Bool}

end std.map

namespace mutation_partition

variable {α : Type} {s : schema_ptr}

end mutation_partition

/-! ## The sample schema and partitions meet the requirements -/

namespace std.map

variable {K V : Type} {comp : K → K → Bool}

theorem key_of_mem_subscript_update (dflt : V) (f : V → V) (l : List (K × V)) (k : K)
    {x : K × V} (hx : x ∈ subscript_update_in comp dflt f l k) :
    x.1 = k ∨ ∃ y ∈ l, y.1 = x.1 := by
  induction l with
  | nil =>
    simp only [subscript_update_in, List.mem_singleton] at hx
    exact Or.inl (by rw [hx])
  | cons e rest ih =>
    simp only [subscript_update_in] at hx
    by_cases h₁ : comp e.1 k = true
    · simp only [h₁, if_true, List.mem_cons] at hx
      rcases hx with hx | hx
      · exact Or.inr ⟨e, List.mem_cons_self _ _, by rw [hx]⟩
      · rcases ih hx with h' | ⟨y, hy, hy'⟩
        · exact Or.inl h'
        · exact Or.inr ⟨y, List.mem_cons_of_mem _ hy, hy'⟩
    · by_cases h₂ : comp k e.1 = true
      · simp only [h₁, h₂, if_true, if_false, Bool.false_eq_true, List.mem_cons] at hx
        rcases hx with hx | hx | hx
        · exact Or.inl (by rw [hx])
        · exact Or.inr ⟨e, List.mem_cons_self _ _, by rw [hx]⟩
        · exact Or.inr ⟨x, List.mem_cons_of_mem _ hx, rfl⟩
      · simp only [h₁, h₂, if_false, Bool.false_eq_true, List.mem_cons] at hx
        rcases hx with hx | hx
        · exact Or.inr ⟨e, List.mem_cons_self _ _, by rw [hx]⟩
        · exact Or.inr ⟨x, List.mem_cons_of_mem _ hx, rfl⟩

theorem sorted_subscript_update_in (h : strict_weak_order comp) (dflt : V) (f : V → V)
    (l : List (K × V)) (k : K) (hl : l.Pairwise (fun a b => comp a.1 b.1 = true)) :
    (subscript_update_in comp dflt f l k).Pairwise (fun a b => comp a.1 b.1 = true) := by
  induction l with
  | nil => simp [subscript_update_in]
  | cons e rest ih =>
    rw [List.pairwise_cons] at hl
    simp only [subscript_update_in]
    by_cases h₁ : comp e.1 k = true
    · simp only [h₁, if_true]
      rw [List.pairwise_cons]
      refine ⟨?_, ih hl.2⟩
      intro x hx
      rcases key_of_mem_subscript_update dflt f rest k hx with h' | ⟨y, hy, hy'⟩
      · rw [h']; exact h₁
      · rw [← hy']; exact hl.1 y hy
    · by_cases h₂ : comp k e.1 = true
      · simp only [h₁, h₂, if_true, if_false, Bool.false_eq_true]
        rw [List.pairwise_cons, List.pairwise_cons]
        refine ⟨?_, hl.1, hl.2⟩
        intro x hx
        rcases List.mem_cons.1 hx with hx | hx
        · rw [hx]; exact h₂
        · exact h.trans _ _ _ h₂ (hl.1 x hx)
      · simp only [h₁, h₂, if_false, Bool.false_eq_true]
        rw [List.pairwise_cons]
        exact ⟨hl.1, hl.2⟩

theorem forall_subscript_update_in (dflt : V) (f : V → V) (P : V → Prop)
    (l : List (K × V)) (k : K) (hl : ∀ e ∈ l, P e.2) (hd : P (f dflt))
    (hf : ∀ a, P a → P (f a)) :
    ∀ e ∈ subscript_update_in comp dflt f l k, P e.2 := by
  induction l with
  | nil =>
    intro e he
    simp only [subscript_update_in, List.mem_singleton] at he
    rw [he]; exact hd
  | cons e₀ rest ih =>
    intro e he
    simp only [subscript_update_in] at he
    have hrest : ∀ e ∈ rest, P e.2 := fun e he => hl e (List.mem_cons_of_mem _ he)
    by_cases h₁ : comp e₀.1 k = true
    · simp only [h₁, if_true, List.mem_cons] at he
      rcases he with he | he
      · rw [he]; exact hl e₀ (List.mem_cons_self _ _)
      · exact ih hrest e he
    · by_cases h₂ : comp k e₀.1 = true
      · simp only [h₁, h₂, if_true, if_false, Bool.false_eq_true, List.mem_cons] at he
        rcases he with he | he | he
        · rw [he]; exact hd
        · rw [he]; exact hl e₀ (List.mem_cons_self _ _)
        · exact hrest e he
      · simp only [h₁, h₂, if_false, Bool.false_eq_true, List.mem_cons] at he
        rcases he with he | he
        · rw [he]; exact hf _ (hl e₀ (List.mem_cons_self _ _))
        · exact hrest e he

end std.map

/-- The freshly constructed partition is well formed. -/
theorem mutation_partition.well_formed_init (α : Type) (s : schema_ptr) :
    (mutation_partition.init α s).well_formed := by
  refine ⟨List.Pairwise.nil, List.Pairwise.nil, ?_⟩
  intro e he
  exact absurd he (List.not_mem_nil _)

/-- Merging a partition tombstone keeps a partition well formed. -/
theorem mutation_partition.well_formed_apply {α : Type} {s : schema_ptr}
    (p : mutation_partition α s) (t : tombstone) (hp : p.well_formed) :
    (p.apply t).well_formed := hp

/-- Setting a static cell keeps the partition of a mutation well formed. -/
theorem mutation.well_formed_set_static_cell {α : Type} (m : mutation α)
    (d : column_definition) (v : boost.any α) (hp : m.p.well_formed) :
    (m.set_static_cell d v).p.well_formed :=
  ⟨std.map.sorted_subscript_update_in column_id_less_swo _ _ _ _ hp.1, hp.2.1, hp.2.2⟩

/-- Setting a clustered cell keeps the partition of a mutation well formed. -/
theorem mutation.well_formed_set_clustered_cell {α : Type} (m : mutation α)
    (key : clustering_key) (d : column_definition) (v : boost.any α)
    (h : std.strict_weak_order m.schema.clustering_key_type.key_compare)
    (hp : m.p.well_formed) :
    (m.set_clustered_cell key d v).p.well_formed := by
  refine ⟨hp.1, std.map.sorted_subscript_update_in h _ _ _ _ hp.2.1, ?_⟩
  apply std.map.forall_subscript_update_in (deletable_row.init α) _
    (fun r : deletable_row α => r.cells.sorted) _ key hp.2.2
  · exact std.map.sorted_subscript_update_in column_id_less_swo _ _ _ _ List.Pairwise.nil
  · intro a ha
    exact std.map.sorted_subscript_update_in column_id_less_swo _ _ _ _ ha

/-- The partition after a write through the reference that `clustered_row(key)`
returns holds, at `key`, the row that `clustered_row(key)` left there with its
cells replaced, and the cells that `clustered_row(key)` returns are the cells
of the row it leaves at `key`. -/
theorem mutation_partition.clustered_row_update_agrees {α : Type} {s : schema_ptr}
    (p : mutation_partition α s) (key : clustering_key) (f : row α → row α)
    (h : std.strict_weak_order s.clustering_key_type.key_compare) :
    (p.clustered_row_update key f)._rows.find key
      = ((p.clustered_row key).1._rows.find key).map (fun r => { r with cells := f r.cells })
    ∧ ((p.clustered_row key).1._rows.find key).map (fun r => r.cells)
      = some (p.clustered_row key).2 := by
  have h₁ := std.map.find_in_subscript_update_self h (deletable_row.init α)
    (fun r : deletable_row α => { r with cells := f r.cells }) p._rows.entries key
  have h₂ := std.map.find_in_subscript_update_self h (deletable_row.init α) id
    p._rows.entries key
  have h₃ := @std.map.subscript_ref_in_eq _ _ s.clustering_key_type.key_compare
    (deletable_row.init α) p._rows.entries key
  constructor
  · show std.map.find_in _ (std.map.subscript_update_in _ _ _ p._rows.entries key) key
      = (std.map.find_in _ (std.map.subscript_update_in _ _ id p._rows.entries key) key).map _
    rw [h₁, h₂]
    rfl
  · show (std.map.find_in _ (std.map.subscript_update_in _ _ id p._rows.entries key) key).map _
      = some (std.map.subscript_ref_in _ _ p._rows.entries key).cells
    rw [h₂, h₃]
    rfl
